import Mathlib

/-!
Shallow embedding of the timeline data model, project (de)serialization,
duration probing and the export-compilation pipeline of `video_editor.py`.

Times (seconds, Python floats) are modelled as rationals.  Python's stable
`list.sort` is modelled by `List.mergeSort`, which is stable.  Python dicts
(insertion ordered) are modelled by association lists with
update-in-place-or-append insertion.  The external ffmpeg/ffprobe
collaborators are modelled as oracles: a probing function
`String → Option ℚ` and, for export execution, a per-invocation result
oracle `Nat → StepResult`.  `_export_with_ffmpeg` builds its ffmpeg
commands deterministically from the project, so it is embedded as a plan
compiler (`compile`) producing the structured content of those commands,
plus an executor (`runCalls`) that mirrors the sequence of blocking
`subprocess.run(..., check=True)` invocations: the first failing
invocation raises and aborts the remainder, with no cleanup of whatever
the failed invocation left at its target path.
-/

namespace VE

/-- `MediaItem` dataclass: path, media_type, thumbnail, id (line 229). -/
structure MediaItem where
  path : String
  media_type : String
  thumbnail : String
  id : String
deriving DecidableEq

/-- `Clip` dataclass: media_id, in_point, out_point, start_time (line 250). -/
structure Clip where
  media_id : String
  in_point : ℚ
  out_point : ℚ
  start_time : ℚ
deriving DecidableEq

/-- The dict produced by `MediaItem.to_dict`: keys id/path/media_type/thumbnail. -/
structure MediaDoc where
  id : String
  path : String
  media_type : String
  thumbnail : String
deriving DecidableEq

/-- The dict produced by `Clip.to_dict`: JSON keys "media_id"/"in"/"out"/"start"
(`inPt`/`outPt` stand for the keys "in"/"out"). -/
structure ClipDoc where
  media_id : String
  inPt : ℚ
  outPt : ℚ
  start : ℚ
deriving DecidableEq

/-- `Project`: media dict (insertion-ordered, keyed by media id), the two clip
lists, and the two directory settings (line 269). -/
structure Project where
  media : List (String × MediaItem)
  video_clips : List Clip
  audio_clips : List Clip
  workspace_dir : String
  export_dir : String
deriving DecidableEq

/-- The dict produced by `Project.to_dict` (line 291): media values in dict
order, both clip lists, and the two directories. -/
structure ProjectDoc where
  media : List MediaDoc
  video_clips : List ClipDoc
  audio_clips : List ClipDoc
  workspace_dir : String
  export_dir : String
deriving DecidableEq

/-- `MediaItem.to_dict` (line 237). -/
def MediaItem.to_dict (m : MediaItem) : MediaDoc :=
  ⟨m.id, m.path, m.media_type, m.thumbnail⟩

/-- `MediaItem.from_dict` (line 245). -/
def MediaItem.from_dict (d : MediaDoc) : MediaItem :=
  ⟨d.path, d.media_type, d.thumbnail, d.id⟩

/-- `Clip.to_dict` (line 257). -/
def Clip.to_dict (c : Clip) : ClipDoc :=
  ⟨c.media_id, c.in_point, c.out_point, c.start_time⟩

/-- `Clip.from_dict` (line 264). -/
def Clip.from_dict (d : ClipDoc) : Clip :=
  ⟨d.media_id, d.inPt, d.outPt, d.start⟩

/-- Python dict assignment `d[k] = v` on an insertion-ordered dict: update the
value in place if the key exists, else append. -/
def dictInsert (d : List (String × MediaItem)) (k : String) (v : MediaItem) :
    List (String × MediaItem) :=
  match d with
  | [] => [(k, v)]
  | (k', v') :: rest =>
    if k' = k then (k, v) :: rest else (k', v') :: dictInsert rest k v

/-- Default directory of `Project.__init__` (line 275); the `os.makedirs`
side effects are outside the model. -/
def defaultWorkspaceDir : String := "~/video_editor_workspace"

/-- Default export directory of `Project.__init__` (line 276). -/
def defaultExportDir : String := "~/Videos"

/-- `Project.add_media` (line 280): `self.media[item.id] = item`. -/
def Project.add_media (p : Project) (item : MediaItem) : Project :=
  { p with media := dictInsert p.media item.id item }

/-- The sort key of `add_clip`: compare clips by `start_time`
(`key=lambda c: c.start_time`, line 286). -/
def clipLe (a b : Clip) : Bool := decide (a.start_time ≤ b.start_time)

/-- `Project.add_clip` (line 283): append to the video list and stable-sort it
when `track == "video"`, otherwise append to the audio list and stable-sort
that.  Python's `list.sort` is a stable sort, modelled by `List.mergeSort`. -/
def Project.add_clip (p : Project) (clip : Clip) (track : String) : Project :=
  if track = "video" then
    { p with video_clips := (p.video_clips ++ [clip]).mergeSort clipLe }
  else
    { p with audio_clips := (p.audio_clips ++ [clip]).mergeSort clipLe }

/-- `Project.to_dict` (line 291). -/
def Project.to_dict (p : Project) : ProjectDoc :=
  { media := p.media.map (fun kv => kv.2.to_dict)
  , video_clips := p.video_clips.map Clip.to_dict
  , audio_clips := p.audio_clips.map Clip.to_dict
  , workspace_dir := p.workspace_dir
  , export_dir := p.export_dir }

/-- `Project.from_dict` (line 300): start from a fresh project, take the two
directories from the document (`data.get` defaults only apply to documents
missing those keys; the doc type here is total), re-create every media item in
order via `proj.media[item.id] = item`, then append the clip records in order
to the initially empty clip lists. -/
def Project.from_dict (d : ProjectDoc) : Project :=
  { media := d.media.foldl
      (fun acc m => dictInsert acc (MediaItem.from_dict m).id (MediaItem.from_dict m)) []
  , video_clips := d.video_clips.map Clip.from_dict
  , audio_clips := d.audio_clips.map Clip.from_dict
  , workspace_dir := d.workspace_dir
  , export_dir := d.export_dir }

/-- The track-ordering invariant: clips sorted by `start_time` ascending. -/
def sortedByStart (l : List Clip) : Prop :=
  l.Pairwise (fun a b => a.start_time ≤ b.start_time)

/-- The per-clip effect of `TimelineWidget.mouseReleaseEvent` (line 526) on a
dragged clip: the new start `t = rect.x() / pixels_per_second` is clamped to 0
when negative and written to `clip.start_time`; `in_point`/`out_point` are not
touched. -/
def moveClip (c : Clip) (t : ℚ) : Clip :=
  { c with start_time := if t < 0 then 0 else t }

/-- The track-level effect of the mouse-release move: the clip at position `i`
gets its `start_time` updated in place; the list itself is not re-sorted
(`mouseReleaseEvent` mutates `clip.start_time` and nothing else). -/
def moveInTrack (track : List Clip) (i : Nat) (t : ℚ) : List Clip :=
  match track.get? i with
  | some c => track.set i (moveClip c t)
  | none => track

/-- The clip list selected by a track label, mirroring the
`if track == "video"` branch of `add_clip`. -/
def trackClips (p : Project) (track : String) : List Clip :=
  if track = "video" then p.video_clips else p.audio_clips

/-! Duration probing (`get_media_duration`, line 116). -/

/-- Lookup in the process-wide probe cache (`get_media_duration._cache`),
keyed by path. -/
def cacheLookup (cache : List (String × ℚ)) (path : String) : Option ℚ :=
  (cache.find? (fun kv => decide (kv.1 = path))).map Prod.snd

/-- Result of one `get_media_duration` call: the returned duration, the cache
afterwards, and how many ffprobe duration invocations were issued. -/
structure ProbeOutcome where
  duration : ℚ
  cache : List (String × ℚ)
  invocations : Nat
deriving DecidableEq

/-- `get_media_duration` (line 116).  `installed` models `ffprobe_installed()`;
`probe` models the ffprobe subprocess plus float parse, `none` meaning the
`try` block raised.  If ffprobe is missing the fallback 10.0 is returned
before the cache is consulted; otherwise a cached path is answered from the
cache with no probe invocation; otherwise one probe runs and its result (or
the 10.0 fallback on failure) is stored under the path and returned. -/
def get_media_duration (installed : Bool) (probe : String → Option ℚ)
    (cache : List (String × ℚ)) (path : String) : ProbeOutcome :=
  if installed = false then ⟨10, cache, 0⟩
  else
    match cacheLookup cache path with
    | some d => ⟨d, cache, 0⟩
    | none =>
      match probe path with
      | some d => ⟨d, cache ++ [(path, d)], 1⟩
      | none => ⟨10, cache ++ [(path, 10)], 1⟩

/-! Export compilation (`MainWindow._export_with_ffmpeg`, line 837). -/

/-- Dict lookup `self.project.media[mid]` (line 842/897), as an option. -/
def lookupMedia (media : List (String × MediaItem)) (mid : String) : Option MediaItem :=
  (media.find? (fun kv => decide (kv.1 = mid))).map Prod.snd

/-- Python `f"{idx:03d}"`. -/
def pad3 (n : Nat) : String :=
  if n < 10 then "00" ++ toString n
  else if n < 100 then "0" ++ toString n
  else toString n

/-- Temp file name `v_{idx:03d}.mp4` under the export temp dir (line 843). -/
def vTmpName (tempDir : String) (idx : Nat) : String :=
  tempDir ++ "/v_" ++ pad3 idx ++ ".mp4"

/-- Temp file name `a_{idx:03d}.mp3` under the export temp dir (line 898). -/
def aTmpName (tempDir : String) (idx : Nat) : String :=
  tempDir ++ "/a_" ++ pad3 idx ++ ".mp3"

/-- Name of the concatenated video stream file (line 863). -/
def concatName (tempDir : String) : String := tempDir ++ "/video_concat.mp4"

/-- One trim invocation `ffmpeg -ss seek -i srcPath -to dur ... outFile`
(lines 844 and 899): extract `dur` seconds starting at source offset
`seek`, i.e. the range `[seek, seek + dur)`. -/
structure TrimStep where
  srcPath : String
  seek : ℚ
  dur : ℚ
  outFile : String
deriving DecidableEq

/-- The concat invocation (line 864): inputs listed in `video_list.txt` in
order, output `video_concat.mp4`. -/
structure ConcatStep where
  inputs : List String
  outFile : String
deriving DecidableEq

/-- The audio mix graph of the final command (lines 914-921): per input the
`adelay=d|d` millisecond delays written for the two channel slots, and
`amix=inputs=N:duration=longest`. -/
structure MixSpec where
  inputs : List String
  delays : List (Int × Int)
  durationLongest : Bool
deriving DecidableEq

/-- The final mux invocation (line 880 or 923): the concatenated video, an
optional audio mix graph, and the user-chosen output path as its target. -/
structure MuxStep where
  videoInput : String
  audioMix : Option MixSpec
  outFile : String
deriving DecidableEq

/-- The structured content of the ffmpeg commands `_export_with_ffmpeg` runs,
in order: video trims, the video concat, audio trims, the final mux. -/
structure ExportPlan where
  videoTrims : List TrimStep
  concat : ConcatStep
  audioTrims : List TrimStep
  mux : MuxStep
deriving DecidableEq

/-- Python `int(q)`: truncation toward zero. -/
def ratTrunc (q : ℚ) : Int := q.num.tdiv (q.den : Int)

/-- `delay_ms = int(start * 1000)` applied to both channel slots of
`adelay={delay_ms}|{delay_ms}` (lines 918-919). -/
def delayPair (c : Clip) : Int × Int :=
  (ratTrunc (c.start_time * 1000), ratTrunc (c.start_time * 1000))

/-- The clip fields a trim command depends on: everything but `start_time`. -/
def stripStart (c : Clip) : String × ℚ × ℚ := (c.media_id, c.in_point, c.out_point)

/-- The trim loop (lines 841-858 for video, 896-913 for audio): for the clip
at position `idx`, look up its media item and emit a trim of
`[in_point, in_point + (out_point - in_point))` from the item's path into the
numbered temp file.  A missing media id is the `KeyError` of
`self.project.media[clip.media_id]`, modelled as `none`. -/
def compileTrims (media : List (String × MediaItem)) (name : Nat → String) :
    Nat → List Clip → Option (List TrimStep)
  | _, [] => some []
  | idx, c :: rest =>
    match lookupMedia media c.media_id with
    | none => none
    | some m =>
      match compileTrims media name (idx + 1) rest with
      | none => none
      | some ts =>
        some ({ srcPath := m.path, seek := c.in_point,
                dur := c.out_point - c.in_point, outFile := name idx } :: ts)

/-- The plan built by `_export_with_ffmpeg` (line 837): trim every video clip
in list order, concatenate those temp files in the same order, then either
mux the concatenated video alone (empty audio track, line 879) or trim every
audio clip, delay each by `int(start_time * 1000)` ms and `amix` them with
`duration=longest` inside the final mux (lines 894-943). -/
def compile (p : Project) (tempDir outputPath : String) : Option ExportPlan :=
  match compileTrims p.media (vTmpName tempDir) 0 p.video_clips with
  | none => none
  | some vts =>
    let concat : ConcatStep := ⟨vts.map TrimStep.outFile, concatName tempDir⟩
    if p.audio_clips.isEmpty then
      some ⟨vts, concat, [], ⟨concat.outFile, none, outputPath⟩⟩
    else
      match compileTrims p.media (aTmpName tempDir) 0 p.audio_clips with
      | none => none
      | some ats =>
        some ⟨vts, concat, ats,
          ⟨concat.outFile,
           some ⟨ats.map TrimStep.outFile, p.audio_clips.map delayPair, true⟩,
           outputPath⟩⟩

/-- The failure modes of `MainWindow.export_project` (line 817): missing
ffmpeg, an empty video track, or a dangling clip media id (`KeyError`). -/
inductive ExportError
  | ffmpegMissing
  | emptyTimeline
  | missingMedia
deriving DecidableEq

/-- `MainWindow.export_project` (line 817): refuse when ffmpeg is missing,
then refuse when the video track has no clips, and only then run
`_export_with_ffmpeg` (here: build its plan). -/
def export_project (ffmpegOk : Bool) (p : Project) (tempDir outputPath : String) :
    Except ExportError ExportPlan :=
  if ffmpegOk = false then .error .ffmpegMissing
  else if p.video_clips.isEmpty then .error .emptyTimeline
  else
    match compile p tempDir outputPath with
    | some plan => .ok plan
    | none => .error .missingMedia

/-- One external engine invocation, identified by its kind and target file. -/
structure EngineCall where
  kind : String
  outFile : String
deriving DecidableEq

/-- The ffmpeg invocations of a plan in execution order: video trims, the
concat, audio trims, the final mux. -/
def planCalls (plan : ExportPlan) : List EngineCall :=
  plan.videoTrims.map (fun t => ⟨"trim", t.outFile⟩)
    ++ [⟨"concat", plan.concat.outFile⟩]
    ++ plan.audioTrims.map (fun t => ⟨"trim", t.outFile⟩)
    ++ [⟨"mux", plan.mux.outFile⟩]

/-- The engine invocations an `export_project` call issues: none when it
fails before `_export_with_ffmpeg`, the plan's calls otherwise. -/
def exportCalls (ffmpegOk : Bool) (p : Project) (tempDir outputPath : String) :
    List EngineCall :=
  match export_project ffmpegOk p tempDir outputPath with
  | .ok plan => planCalls plan
  | .error _ => []

/-- Outcome of one engine invocation: success, or failure that may or may not
leave a (partial) file at the invocation's target path. -/
inductive StepResult
  | ok
  | fail (leavesFile : Bool)
deriving DecidableEq

/-- State after executing (a prefix of) the plan: the calls actually issued,
the target files fully written, the leftover files of a failed invocation,
and whether a failure occurred. -/
structure ExecState where
  executed : List EngineCall
  files : List String
  incomplete : List String
  failed : Bool
deriving DecidableEq

/-- Execution of the call sequence, mirroring the chain of
`subprocess.run(..., check=True)` invocations: the `n`-th issued call gets
result `engine n`; the first failure raises `CalledProcessError`, which
aborts everything after it, and the code performs no cleanup of whatever the
failed invocation left behind at its target path. -/
def runCalls (engine : Nat → StepResult) : List EngineCall → ExecState
  | [] => ⟨[], [], [], false⟩
  | c :: rest =>
    match engine 0 with
    | .ok =>
      let st := runCalls (fun n => engine (n + 1)) rest
      ⟨c :: st.executed, c.outFile :: st.files, st.incomplete, st.failed⟩
    | .fail b => ⟨[c], [], if b then [c.outFile] else [], true⟩

/-! `trim` and `totalDuration` have no implementation in the repository;
they are modelled from the spec (sections 4.2 and 8). -/

/-- Spec error type for `trim`. -/
inductive TrimError
  | invalidRange
deriving DecidableEq

/-- The upper-bound check of the spec's `trim`: `newOut ≤ asset.duration`
when the duration is known, vacuous when it is not. -/
def durOk (newOut : ℚ) (assetDuration : Option ℚ) : Bool :=
  match assetDuration with
  | some d => decide (newOut ≤ d)
  | none => true

/-- Modelled from the spec: the repository source has no `trim` operation;
spec section 4.2 defines `trim(clip, newIn, newOut)` as the non-destructive
edit primitive that fails with `InvalidRangeError` unless
`0 ≤ newIn < newOut` and, when the asset duration is known,
`newOut ≤ asset.duration`, and otherwise replaces the clip's in/out points. -/
def trim (c : Clip) (newIn newOut : ℚ) (assetDuration : Option ℚ) :
    Except TrimError Clip :=
  if 0 ≤ newIn then
    if newIn < newOut then
      if durOk newOut assetDuration = true then
        .ok { c with in_point := newIn, out_point := newOut }
      else .error .invalidRange
    else .error .invalidRange
  else .error .invalidRange

/-- Modelled from the spec: the repository source has no `totalDuration`;
spec section 4.2 defines `totalDuration(track)` as
`max over clips of (startTime + (outPoint - inPoint))`, or 0 for an empty
track. -/
def totalDuration (track : List Clip) : ℚ :=
  track.foldr (fun c m => max (c.start_time + (c.out_point - c.in_point)) m) 0

/-! Concrete fixtures used by witnesses and counterexamples. -/

/-- A video asset fixture. -/
def itemV : MediaItem := ⟨"/media/a.mp4", "video", "/thumbs/a.jpg", "idV"⟩

/-- A second video asset fixture. -/
def itemV2 : MediaItem := ⟨"/media/b.mp4", "video", "/thumbs/b.jpg", "idV2"⟩

/-- An audio asset fixture. -/
def itemA : MediaItem := ⟨"/media/c.mp3", "audio", "/thumbs/c.jpg", "idA"⟩

/-- An image asset fixture. -/
def itemI : MediaItem := ⟨"/media/d.png", "image", "/thumbs/d.jpg", "idI"⟩

/-- Round-trip fixture: one asset of each kind and two clips per track. -/
def rtProj : Project :=
  { media := [("idV", itemV), ("idA", itemA), ("idI", itemI)]
  , video_clips := [⟨"idV", 0, 3, 0⟩, ⟨"idV", 1, 4, 3⟩]
  , audio_clips := [⟨"idA", 0, 2, 0⟩, ⟨"idA", 0, 5, 2⟩]
  , workspace_dir := "/ws"
  , export_dir := "/exp" }

/-- Export fixture: two video clips of source durations 3s and 4s, empty
audio track. -/
def vProj : Project :=
  { media := [("idV", itemV), ("idV2", itemV2)]
  , video_clips := [⟨"idV", 0, 3, 0⟩, ⟨"idV2", 0, 4, 3⟩]
  , audio_clips := []
  , workspace_dir := "/ws"
  , export_dir := "/exp" }

/-- Export fixture: one video clip and two audio clips at start times 0
and 2.5 seconds. -/
def aProj : Project :=
  { media := [("idV", itemV), ("idA", itemA)]
  , video_clips := [⟨"idV", 0, 3, 0⟩]
  , audio_clips := [⟨"idA", 0, 2, 0⟩, ⟨"idA", 0, 5, 5/2⟩]
  , workspace_dir := "/ws"
  , export_dir := "/exp" }

/-- Fixture with an empty video track (and a non-empty audio track). -/
def eProj : Project :=
  { media := [("idA", itemA)]
  , video_clips := []
  , audio_clips := [⟨"idA", 0, 2, 0⟩]
  , workspace_dir := "/ws"
  , export_dir := "/exp" }

/-- Single-video-clip export fixture for the execution counterexample. -/
def cxProj : Project :=
  { media := [("idV", itemV)]
  , video_clips := [⟨"idV", 0, 3, 0⟩]
  , audio_clips := []
  , workspace_dir := "/ws"
  , export_dir := "/exp" }

/-- Engine oracle: the third invocation (the mux) fails and leaves a partial
file at its target path; everything before succeeds. -/
def cxEngine : Nat → StepResult := fun n => if n = 2 then .fail true else .ok

/-- Engine oracle that always succeeds. -/
def okEngine : Nat → StepResult := fun _ => .ok

/-- A sorted two-clip track fixture: starts 0 and 5. -/
def sortedTrack : List Clip := [⟨"idV", 0, 1, 0⟩, ⟨"idV2", 0, 1, 5⟩]

/-- The plan `compile` produces for `vProj`. -/
def cPlanV : ExportPlan :=
  { videoTrims := [⟨"/media/a.mp4", 0, 3 - 0, "/tmp/v_000.mp4"⟩,
                   ⟨"/media/b.mp4", 0, 4 - 0, "/tmp/v_001.mp4"⟩]
  , concat := ⟨["/tmp/v_000.mp4", "/tmp/v_001.mp4"], "/tmp/video_concat.mp4"⟩
  , audioTrims := []
  , mux := ⟨"/tmp/video_concat.mp4", none, "/out.mp4"⟩ }

/-- The plan `compile` produces for `cxProj`. -/
def cPlanC : ExportPlan :=
  { videoTrims := [⟨"/media/a.mp4", 0, 3 - 0, "/tmp/v_000.mp4"⟩]
  , concat := ⟨["/tmp/v_000.mp4"], "/tmp/video_concat.mp4"⟩
  , audioTrims := []
  , mux := ⟨"/tmp/video_concat.mp4", none, "/out.mp4"⟩ }

/-- The plan `compile` produces for `aProj`. -/
def cPlanA : ExportPlan :=
  { videoTrims := [⟨"/media/a.mp4", 0, 3 - 0, "/tmp/v_000.mp4"⟩]
  , concat := ⟨["/tmp/v_000.mp4"], "/tmp/video_concat.mp4"⟩
  , audioTrims := [⟨"/media/c.mp3", 0, 2 - 0, "/tmp/a_000.mp3"⟩,
                   ⟨"/media/c.mp3", 0, 5 - 0, "/tmp/a_001.mp3"⟩]
  , mux := ⟨"/tmp/video_concat.mp4",
      some ⟨["/tmp/a_000.mp3", "/tmp/a_001.mp3"],
            [delayPair ⟨"idA", 0, 2, 0⟩, delayPair ⟨"idA", 0, 5, 5/2⟩], true⟩,
      "/out.mp4"⟩ }

/-! Theorems -/

/-- C7: the mouse-release move sets the dragged clip's `start_time` to
`max 0 t` (clamping, not rejection) and leaves `in_point`, `out_point` and
the media reference unchanged. -/
theorem move_clamps_and_preserves_range (c : Clip) (t : ℚ) :
    (moveClip c t).start_time = max 0 t ∧
    (moveClip c t).in_point = c.in_point ∧
    (moveClip c t).out_point = c.out_point ∧
    (moveClip c t).media_id = c.media_id := by
  refine ⟨?_, rfl, rfl, rfl⟩
  simp only [moveClip]
  split
  · rename_i h
    exact (max_eq_left (le_of_lt h)).symm
  · rename_i h
    exact (max_eq_right (le_of_not_lt h)).symm

/-- C10: `add_clip` is total over track labels: the clip lands on the video
track exactly when the label is `"video"`, and on the audio track for every
other string; the untouched track is unchanged and the touched one holds
exactly the old clips plus the new one. -/
theorem add_clip_track_totality (p : Project) (c : Clip) (track : String) :
    (Project.add_clip p c track).video_clips.Perm
      (if track = "video" then p.video_clips ++ [c] else p.video_clips) ∧
    (Project.add_clip p c track).audio_clips.Perm
      (if track = "video" then p.audio_clips else p.audio_clips ++ [c]) ∧
    (track ≠ "video" → (Project.add_clip p c track).video_clips = p.video_clips) ∧
    (track = "video" → (Project.add_clip p c track).audio_clips = p.audio_clips) := by
  by_cases h : track = "video" <;>
    simp [Project.add_clip, h, List.mergeSort_perm, List.Perm.refl]

/-- Witness for C10 at a label that is neither "video" nor "audio". -/
theorem add_clip_track_totality_w :
    (Project.add_clip cxProj ⟨"idA", 0, 2, 0⟩ "subtitle").video_clips.Perm
      (if ("subtitle" : String) = "video" then cxProj.video_clips ++ [⟨"idA", 0, 2, 0⟩]
       else cxProj.video_clips) ∧
    (Project.add_clip cxProj ⟨"idA", 0, 2, 0⟩ "subtitle").audio_clips.Perm
      (if ("subtitle" : String) = "video" then cxProj.audio_clips
       else cxProj.audio_clips ++ [⟨"idA", 0, 2, 0⟩]) ∧
    (("subtitle" : String) ≠ "video" →
      (Project.add_clip cxProj ⟨"idA", 0, 2, 0⟩ "subtitle").video_clips = cxProj.video_clips) ∧
    (("subtitle" : String) = "video" →
      (Project.add_clip cxProj ⟨"idA", 0, 2, 0⟩ "subtitle").audio_clips = cxProj.audio_clips) :=
  add_clip_track_totality cxProj ⟨"idA", 0, 2, 0⟩ "subtitle"

/-- C6: exporting with an empty video track fails with the empty-timeline
error before `_export_with_ffmpeg` runs, so no engine call is issued. -/
theorem export_empty_video_fails (p : Project) (tempDir outputPath : String)
    (h : p.video_clips = []) :
    export_project true p tempDir outputPath = .error .emptyTimeline ∧
    exportCalls true p tempDir outputPath = [] := by
  have h1 : export_project true p tempDir outputPath = .error .emptyTimeline := by
    simp [export_project, h]
  exact ⟨h1, by simp [exportCalls, h1]⟩

/-- Witness for C6: a project with clips on the audio track only. -/
theorem export_empty_video_fails_w :
    export_project true eProj "/tmp" "/out.mp4" = .error .emptyTimeline ∧
    exportCalls true eProj "/tmp" "/out.mp4" = [] :=
  export_empty_video_fails eProj "/tmp" "/out.mp4" rfl

/-- A fresh key appended to the cache is found afterwards. -/
theorem cacheLookup_append_hit (cache : List (String × ℚ)) (path : String) (d : ℚ)
    (h : cacheLookup cache path = none) :
    cacheLookup (cache ++ [(path, d)]) path = some d := by
  have hf : cache.find? (fun kv => decide (kv.1 = path)) = none := by
    cases hf : cache.find? (fun kv => decide (kv.1 = path)) with
    | none => rfl
    | some kv =>
      unfold cacheLookup at h
      rw [hf] at h
      simp at h
  unfold cacheLookup
  rw [List.find?_append, hf]
  simp

/-- C8: probing with the collaborator unavailable, or failing on a fresh
path, returns the 10.0 fallback; and whatever a first probe of a fresh path
returns is cached, so an immediate second probe of the same path returns the
same value with zero probe invocations and an unchanged cache. -/
theorem probe_fallback_memo (probe : String → Option ℚ) (cache : List (String × ℚ))
    (path : String) (hfresh : cacheLookup cache path = none) :
    (get_media_duration false probe cache path).duration = 10 ∧
    (probe path = none → (get_media_duration true probe cache path).duration = 10) ∧
    (get_media_duration true probe
        (get_media_duration true probe cache path).cache path =
      ⟨(get_media_duration true probe cache path).duration,
       (get_media_duration true probe cache path).cache, 0⟩) := by
  refine ⟨by simp [get_media_duration], ?_, ?_⟩
  · intro hp
    simp [get_media_duration, hfresh, hp]
  · cases hp : probe path with
    | some d =>
      have hc : (get_media_duration true probe cache path).cache = cache ++ [(path, d)] := by
        simp [get_media_duration, hfresh, hp]
      have hd : (get_media_duration true probe cache path).duration = d := by
        simp [get_media_duration, hfresh, hp]
      rw [hc, hd]
      simp [get_media_duration, cacheLookup_append_hit cache path d hfresh]
    | none =>
      have hc : (get_media_duration true probe cache path).cache = cache ++ [(path, 10)] := by
        simp [get_media_duration, hfresh, hp]
      have hd : (get_media_duration true probe cache path).duration = 10 := by
        simp [get_media_duration, hfresh, hp]
      rw [hc, hd]
      simp [get_media_duration, cacheLookup_append_hit cache path 10 hfresh]

/-- Witness for C8: an always-failing prober on a fresh path. -/
theorem probe_fallback_memo_w :
    (get_media_duration false (fun _ => none) [] "x").duration = 10 ∧
    ((fun _ => (none : Option ℚ)) "x" = none →
      (get_media_duration true (fun _ => none) [] "x").duration = 10) ∧
    (get_media_duration true (fun _ => none)
        (get_media_duration true (fun _ => none) [] "x").cache "x" =
      ⟨(get_media_duration true (fun _ => none) [] "x").duration,
       (get_media_duration true (fun _ => none) [] "x").cache, 0⟩) :=
  probe_fallback_memo (fun _ => none) [] "x" rfl

/-- C9 counterexample: a valid trim on a clip placed at `start_time` 5 makes
that clip the sole occupant of a track whose `totalDuration` is 8, not
`out − in = 3`: the claim's conclusion fails whenever `start_time ≠ 0`. -/
theorem trim_totalDuration_cex :
    trim ⟨"m", 0, 10, 5⟩ 0 3 (some 10) = .ok ⟨"m", 0, 3, 5⟩ ∧
    totalDuration [⟨"m", 0, 3, 5⟩] ≠ 3 - 0 := by
  constructor
  · unfold trim
    rw [if_pos (by norm_num), if_pos (by norm_num)]
    rw [if_pos (by decide)]
  · have h8 : totalDuration [⟨"m", 0, 3, 5⟩] = 8 := by
      simp only [totalDuration, List.foldr]
      rw [max_eq_left (by norm_num)]
      norm_num
    rw [h8]
    norm_num

/-- C9 (amended): `trim` succeeds exactly on `0 ≤ newIn < newOut` with
`newOut ≤ duration` when the duration is known, and fails with the
invalid-range error otherwise; for the track whose sole occupant is the
trimmed clip, `totalDuration` is `startTime + (newOut − newIn)` (for the
model's `startTime ≥ 0`), which equals `newOut − newIn` exactly when the
clip sits at `startTime = 0`. -/
theorem trim_spec (c : Clip) (a b : ℚ) (dopt : Option ℚ) :
    (trim c a b dopt = .ok { c with in_point := a, out_point := b } ↔
      (0 ≤ a ∧ a < b ∧ ∀ d ∈ dopt, b ≤ d)) ∧
    (¬ (0 ≤ a ∧ a < b ∧ ∀ d ∈ dopt, b ≤ d) →
      trim c a b dopt = .error .invalidRange) ∧
    (0 ≤ c.start_time → a < b →
      totalDuration [{ c with in_point := a, out_point := b }] = c.start_time + (b - a)) ∧
    (c.start_time = 0 → a < b →
      totalDuration [{ c with in_point := a, out_point := b }] = b - a) := by
  have hcond : durOk b dopt = true ↔ (∀ d ∈ dopt, b ≤ d) := by
    cases dopt <;> simp [durOk]
  refine ⟨⟨?_, ?_⟩, ?_, ?_, ?_⟩
  · intro h
    by_cases h0 : 0 ≤ a
    · by_cases h1 : a < b
      · refine ⟨h0, h1, ?_⟩
        by_cases h2 : durOk b dopt = true
        · exact hcond.mp h2
        · exfalso
          unfold trim at h
          rw [if_pos h0, if_pos h1, if_neg h2] at h
          exact Except.noConfusion h
      · exfalso
        unfold trim at h
        rw [if_pos h0, if_neg h1] at h
        exact Except.noConfusion h
    · exfalso
      unfold trim at h
      rw [if_neg h0] at h
      exact Except.noConfusion h
  · rintro ⟨h0, h1, h2⟩
    unfold trim
    rw [if_pos h0, if_pos h1, if_pos (hcond.mpr h2)]
  · intro hn
    unfold trim
    by_cases h0 : 0 ≤ a
    · by_cases h1 : a < b
      · have h2 : ¬ durOk b dopt = true := fun h2 => hn ⟨h0, h1, hcond.mp h2⟩
        rw [if_pos h0, if_pos h1, if_neg h2]
      · rw [if_pos h0, if_neg h1]
    · rw [if_neg h0]
  · intro hst hab
    simp only [totalDuration, List.foldr]
    exact max_eq_left (add_nonneg hst (sub_nonneg.mpr hab.le))
  · intro h0 hab
    simp only [totalDuration, List.foldr]
    rw [h0, zero_add]
    exact max_eq_left (sub_nonneg.mpr hab.le)

/-- Witness for C9 at a clip placed at the start of the timeline. -/
theorem trim_spec_w :
    (trim ⟨"m", 0, 10, 0⟩ 0 3 (some 10) =
        .ok { (⟨"m", 0, 10, 0⟩ : Clip) with in_point := 0, out_point := 3 } ↔
      ((0:ℚ) ≤ 0 ∧ (0:ℚ) < 3 ∧ ∀ d ∈ (some (10:ℚ)), (3:ℚ) ≤ d)) ∧
    (¬ ((0:ℚ) ≤ 0 ∧ (0:ℚ) < 3 ∧ ∀ d ∈ (some (10:ℚ)), (3:ℚ) ≤ d) →
      trim ⟨"m", 0, 10, 0⟩ 0 3 (some 10) = .error .invalidRange) ∧
    ((0:ℚ) ≤ (⟨"m", 0, 10, 0⟩ : Clip).start_time → (0:ℚ) < 3 →
      totalDuration [{ (⟨"m", 0, 10, 0⟩ : Clip) with in_point := 0, out_point := 3 }] =
        (⟨"m", 0, 10, 0⟩ : Clip).start_time + (3 - 0)) ∧
    ((⟨"m", 0, 10, 0⟩ : Clip).start_time = 0 → (0:ℚ) < 3 →
      totalDuration [{ (⟨"m", 0, 10, 0⟩ : Clip) with in_point := 0, out_point := 3 }] =
        3 - 0) :=
  trim_spec ⟨"m", 0, 10, 0⟩ 0 3 (some 10)

/-- `dictInsert` with a key absent from the dict appends the binding. -/
theorem dictInsert_fresh (d : List (String × MediaItem)) (k : String) (v : MediaItem)
    (h : ∀ kv ∈ d, kv.1 ≠ k) : dictInsert d k v = d ++ [(k, v)] := by
  induction d with
  | nil => rfl
  | cons kv rest ih =>
    obtain ⟨k', v'⟩ := kv
    unfold dictInsert
    rw [if_neg (h (k', v') (List.mem_cons_self _ _))]
    rw [ih (fun x hx => h x (List.mem_cons_of_mem _ hx))]
    rfl

/-- Re-creating media items with pairwise-distinct fresh ids appends them to
the accumulator in order, keyed by their ids. -/
theorem from_to_media (med : List (String × MediaItem)) :
    ∀ acc : List (String × MediaItem),
    (∀ kv ∈ med, ∀ kv' ∈ acc, kv'.1 ≠ kv.2.id) →
    (∀ kv ∈ med, kv.1 = kv.2.id) →
    (med.map Prod.fst).Nodup →
    (med.map (fun kv => kv.2.to_dict)).foldl
      (fun acc m => dictInsert acc (MediaItem.from_dict m).id (MediaItem.from_dict m)) acc
      = acc ++ med := by
  induction med with
  | nil =>
    intro acc _ _ _
    simp
  | cons kv rest ih =>
    intro acc hfresh hk hnd
    obtain ⟨k, v⟩ := kv
    have hkv : k = v.id := hk (k, v) (List.mem_cons_self _ _)
    have hknotin : k ∉ rest.map Prod.fst := by
      simp only [List.map_cons, List.nodup_cons] at hnd
      exact hnd.1
    simp only [List.map_cons, List.foldl_cons]
    have h1 : MediaItem.from_dict (MediaItem.to_dict v) = v := rfl
    show (rest.map (fun kv => kv.2.to_dict)).foldl _ (dictInsert acc v.id v) = _
    rw [dictInsert_fresh acc v.id v
      (fun kv' hkv' => hfresh (k, v) (List.mem_cons_self _ _) kv' hkv')]
    rw [ih (acc ++ [(v.id, v)]) ?_ ?_ ?_]
    · rw [← hkv]
      simp
    · intro kv2 hkv2 kv' hkv'
      rcases List.mem_append.mp hkv' with hin | hin
      · exact hfresh kv2 (List.mem_cons_of_mem _ hkv2) kv' hin
      · have heq : kv' = (v.id, v) := List.mem_singleton.mp hin
        rw [heq]
        intro hcontra
        apply hknotin
        have hc2 : v.id = kv2.2.id := hcontra
        rw [hkv, hc2, ← hk kv2 (List.mem_cons_of_mem _ hkv2)]
        exact List.mem_map_of_mem Prod.fst hkv2
    · intro kv2 hkv2
      exact hk kv2 (List.mem_cons_of_mem _ hkv2)
    · simp only [List.map_cons, List.nodup_cons] at hnd
      exact hnd.2

/-- Serializing then deserializing a clip list is the identity. -/
theorem clips_roundtrip (l : List Clip) : (l.map Clip.to_dict).map Clip.from_dict = l := by
  induction l with
  | nil => rfl
  | cons c rest ih =>
    rw [List.map_cons, List.map_cons, ih]
    rfl

/-- C1: for every project whose media dict is keyed by the items' own ids
(as `add_media` and `from_dict` always key it), deserializing the serialized
document reproduces the project exactly: every media asset's id, path,
media_type and thumbnail, both clip lists field-for-field in order, and both
directory settings. -/
theorem save_load_roundTrip (p : Project)
    (hk : ∀ kv ∈ p.media, kv.1 = kv.2.id)
    (hnd : (p.media.map Prod.fst).Nodup) :
    Project.from_dict (Project.to_dict p) = p := by
  obtain ⟨med, vc, ac, wd, ed⟩ := p
  have hmed := from_to_media med [] (fun _ _ _ h => absurd h (List.not_mem_nil _)) hk hnd
  simp only [Project.from_dict, Project.to_dict]
  rw [Project.mk.injEq]
  exact ⟨by simpa using hmed, clips_roundtrip vc, clips_roundtrip ac, rfl, rfl⟩

/-- Witness for C1: a project with one asset of each kind and two clips per
track. -/
theorem save_load_roundTrip_w :
    Project.from_dict (Project.to_dict rtProj) = rtProj :=
  save_load_roundTrip rtProj (by decide) (by decide)

/-- The clip comparison is transitive. -/
theorem clipLe_trans (a b c : Clip) (hab : clipLe a b = true) (hbc : clipLe b c = true) :
    clipLe a c = true := by
  simp only [clipLe, decide_eq_true_eq] at *
  exact le_trans hab hbc

/-- The clip comparison is total. -/
theorem clipLe_total (a b : Clip) : (clipLe a b || clipLe b a) = true := by
  simp only [clipLe]
  rcases le_total a.start_time b.start_time with h | h <;> simp [h]

/-- The mergeSort used by `add_clip` leaves the track sorted by start time. -/
theorem mergeSort_sortedByStart (l : List Clip) : sortedByStart (l.mergeSort clipLe) := by
  refine (List.sorted_mergeSort clipLe_trans clipLe_total l).imp ?_
  intro a b h
  simp only [clipLe, decide_eq_true_eq] at h
  exact h

/-- Stability of the track sort: the clips carrying any fixed start time
appear after sorting exactly as they appeared before. -/
theorem filter_key_mergeSort (l : List Clip) (q : ℚ) :
    (l.mergeSort clipLe).filter (fun x => decide (x.start_time = q)) =
      l.filter (fun x => decide (x.start_time = q)) := by
  have hpair : (l.filter (fun x => decide (x.start_time = q))).Pairwise
      (fun a b => clipLe a b = true) := by
    apply List.pairwise_of_forall_mem_list
    intro a ha b hb
    have ha' : a.start_time = q := of_decide_eq_true (List.mem_filter.mp ha).2
    have hb' : b.start_time = q := of_decide_eq_true (List.mem_filter.mp hb).2
    simp [clipLe, ha', hb']
  have hsub : (l.filter (fun x => decide (x.start_time = q))).Sublist
      (l.mergeSort clipLe) :=
    List.sublist_mergeSort clipLe_trans clipLe_total hpair (List.filter_sublist l)
  have hsub2 := List.Sublist.filter (fun x => decide (x.start_time = q)) hsub
  rw [List.filter_filter] at hsub2
  have hff : (fun a : Clip => decide (a.start_time = q) && decide (a.start_time = q)) =
      (fun a : Clip => decide (a.start_time = q)) := by
    funext a
    rw [Bool.and_self]
  rw [hff] at hsub2
  have hlen : ((l.mergeSort clipLe).filter (fun x => decide (x.start_time = q))).length =
      (l.filter (fun x => decide (x.start_time = q))).length :=
    (List.Perm.filter _ (List.mergeSort_perm l clipLe)).length_eq
  exact (hsub2.eq_of_length hlen.symm).symm

/-- C3 (amended): `add_clip` establishes the sorted-by-start invariant on the
named track (stably: clips with equal start times keep their previous
relative order, the new clip last among its ties) and leaves the other track
untouched, so sortedness of both tracks is preserved; the mouse-release move
does NOT re-sort, see the counterexample. -/
theorem add_clip_sorted_stable (p : Project) (c : Clip) (track : String)
    (h1 : sortedByStart p.video_clips) (h2 : sortedByStart p.audio_clips) :
    sortedByStart ((Project.add_clip p c track).video_clips) ∧
    sortedByStart ((Project.add_clip p c track).audio_clips) ∧
    (∀ q : ℚ,
      (trackClips (Project.add_clip p c track) track).filter
          (fun x => decide (x.start_time = q)) =
        (trackClips p track ++ [c]).filter (fun x => decide (x.start_time = q))) := by
  by_cases h : track = "video"
  · refine ⟨?_, ?_, ?_⟩
    · simp only [Project.add_clip, if_pos h]
      exact mergeSort_sortedByStart _
    · simp only [Project.add_clip, if_pos h]
      exact h2
    · intro q
      simp only [Project.add_clip, trackClips, if_pos h]
      exact filter_key_mergeSort _ q
  · refine ⟨?_, ?_, ?_⟩
    · simp only [Project.add_clip, if_neg h]
      exact h1
    · simp only [Project.add_clip, if_neg h]
      exact mergeSort_sortedByStart _
    · intro q
      simp only [Project.add_clip, trackClips, if_neg h]
      exact filter_key_mergeSort _ q

/-- Witness for C3: adding a clip to a sorted single-clip project. -/
theorem add_clip_sorted_stable_w :
    sortedByStart ((Project.add_clip cxProj ⟨"idV", 0, 2, 0⟩ "video").video_clips) ∧
    sortedByStart ((Project.add_clip cxProj ⟨"idV", 0, 2, 0⟩ "video").audio_clips) ∧
    (∀ q : ℚ,
      (trackClips (Project.add_clip cxProj ⟨"idV", 0, 2, 0⟩ "video") "video").filter
          (fun x => decide (x.start_time = q)) =
        (trackClips cxProj "video" ++ [(⟨"idV", 0, 2, 0⟩ : Clip)]).filter
          (fun x => decide (x.start_time = q))) :=
  add_clip_sorted_stable cxProj ⟨"idV", 0, 2, 0⟩ "video"
    (by unfold sortedByStart; decide) (by unfold sortedByStart; decide)

/-- C3 counterexample: the mouse-release move changes a clip's start time in
place without re-sorting the owning track, so a track that was sorted by
start time is no longer sorted after a move: moving the first clip of a
sorted [0, 5] track to start 10 yields the list [10, 5]. -/
theorem move_not_resorted_cex :
    sortedByStart sortedTrack ∧
    ¬ sortedByStart (moveInTrack sortedTrack 0 10) ∧
    moveInTrack sortedTrack 0 10 = [⟨"idV", 0, 1, 10⟩, ⟨"idV2", 0, 1, 5⟩] := by
  refine ⟨?_, ?_, ?_⟩
  · unfold sortedByStart
    decide
  · unfold sortedByStart
    decide
  · decide

/-- Each compiled trim step extracts exactly the clip's source range: for the
clip at any position, the step reads the clip's asset path, seeks to
`in_point` and lasts until `in_point + dur = out_point`. -/
theorem compileTrims_sound (media : List (String × MediaItem)) (name : Nat → String) :
    ∀ (clips : List Clip) (idx : Nat) (ts : List TrimStep),
    compileTrims media name idx clips = some ts →
    List.Forall₂ (fun (c : Clip) (t : TrimStep) =>
      ∃ m, lookupMedia media c.media_id = some m ∧
        t.srcPath = m.path ∧ t.seek = c.in_point ∧ t.seek + t.dur = c.out_point)
      clips ts := by
  intro clips
  induction clips with
  | nil =>
    intro idx ts h
    simp only [compileTrims, Option.some.injEq] at h
    rw [← h]
    exact List.Forall₂.nil
  | cons c rest ih =>
    intro idx ts h
    cases hl : lookupMedia media c.media_id with
    | none =>
      simp [compileTrims, hl] at h
    | some m =>
      cases hr : compileTrims media name (idx + 1) rest with
      | none =>
        simp [compileTrims, hl, hr] at h
      | some ts' =>
        simp only [compileTrims, hl, hr, Option.some.injEq] at h
        subst h
        refine List.Forall₂.cons ⟨m, hl, rfl, rfl, ?_⟩ (ih (idx + 1) ts' hr)
        show c.in_point + (c.out_point - c.in_point) = c.out_point
        ring

/-- The compiled trim steps depend only on each clip's media id, in point and
out point, never on its `start_time`. -/
theorem compileTrims_congr (media : List (String × MediaItem)) (name : Nat → String) :
    ∀ (clips clips' : List Clip) (idx : Nat),
    clips.map stripStart = clips'.map stripStart →
    compileTrims media name idx clips = compileTrims media name idx clips' := by
  intro clips
  induction clips with
  | nil =>
    intro clips' idx h
    cases clips' with
    | nil => rfl
    | cons c' r' => simp at h
  | cons c rest ih =>
    intro clips' idx h
    cases clips' with
    | nil => simp at h
    | cons c' rest' =>
      simp only [List.map_cons, List.cons.injEq] at h
      obtain ⟨hhead, htail⟩ := h
      simp only [stripStart, Prod.mk.injEq] at hhead
      obtain ⟨h1, h2, h3⟩ := hhead
      unfold compileTrims
      simp only [h1, h2, h3, ih rest' (idx + 1) htail]

/-- Characterization of a successful `compile`: the plan's components in
terms of the project. -/
theorem compile_eq_some (p : Project) (td op : String) (plan : ExportPlan)
    (hc : compile p td op = some plan) :
    ∃ vts, compileTrims p.media (vTmpName td) 0 p.video_clips = some vts ∧
      plan.videoTrims = vts ∧
      plan.concat = ⟨vts.map TrimStep.outFile, concatName td⟩ ∧
      plan.mux.videoInput = concatName td ∧
      plan.mux.outFile = op ∧
      (p.audio_clips = [] → plan.audioTrims = [] ∧ plan.mux.audioMix = none) ∧
      (p.audio_clips ≠ [] →
        ∃ ats, compileTrims p.media (aTmpName td) 0 p.audio_clips = some ats ∧
          plan.audioTrims = ats ∧
          plan.mux.audioMix =
            some ⟨ats.map TrimStep.outFile, p.audio_clips.map delayPair, true⟩) := by
  cases hv : compileTrims p.media (vTmpName td) 0 p.video_clips with
  | none =>
    simp [compile, hv] at hc
  | some vts =>
    simp only [compile, hv] at hc
    by_cases ha : p.audio_clips.isEmpty = true
    · rw [if_pos ha] at hc
      injection hc with hplan
      subst hplan
      refine ⟨vts, rfl, rfl, rfl, rfl, rfl, fun _ => ⟨rfl, rfl⟩, fun hne => ?_⟩
      exact absurd (List.isEmpty_iff.mp ha) hne
    · rw [if_neg ha] at hc
      cases hat : compileTrims p.media (aTmpName td) 0 p.audio_clips with
      | none =>
        rw [hat] at hc
        simp at hc
      | some ats =>
        rw [hat] at hc
        injection hc with hplan
        subst hplan
        refine ⟨vts, rfl, rfl, rfl, rfl, rfl, fun h0 => ?_, fun _ => ⟨ats, rfl, rfl, rfl⟩⟩
        exfalso
        apply ha
        rw [h0]
        rfl

/-- C2: a compiled plan has one trim per video clip in track order, each
extracting that clip's `[in_point, out_point)` from its asset; the concat
step's inputs are exactly those trimmed segments in the same order (placed
edge-to-edge by concatenation, with no dependence on the clips' timeline
start times: any project with the same media, the same audio clips, and the
same video clips up to `start_time` compiles to the very same plan); and an
empty audio track yields a plan with no audio trims and no audio-mix step. -/
theorem export_video_plan_spec (p p' : Project) (td op : String) (plan : ExportPlan)
    (hc : compile p td op = some plan)
    (hm : p'.media = p.media)
    (ha : p'.audio_clips = p.audio_clips)
    (hv : p'.video_clips.map stripStart = p.video_clips.map stripStart) :
    List.Forall₂ (fun (c : Clip) (t : TrimStep) =>
      ∃ m, lookupMedia p.media c.media_id = some m ∧
        t.srcPath = m.path ∧ t.seek = c.in_point ∧ t.seek + t.dur = c.out_point)
      p.video_clips plan.videoTrims ∧
    plan.concat.inputs = plan.videoTrims.map TrimStep.outFile ∧
    (p.audio_clips = [] → plan.audioTrims = [] ∧ plan.mux.audioMix = none) ∧
    compile p' td op = some plan := by
  obtain ⟨vts, hvts, hpv, hpc, _, _, hempty, _⟩ := compile_eq_some p td op plan hc
  refine ⟨?_, ?_, hempty, ?_⟩
  · rw [hpv]
    exact compileTrims_sound _ _ _ 0 _ hvts
  · rw [hpc, hpv]
  · have heq : compile p' td op = compile p td op := by
      unfold compile
      simp only [hm, ha]
      rw [compileTrims_congr p.media (vTmpName td) p'.video_clips p.video_clips 0 hv]
    rw [heq, hc]

/-- Witness for C2: the two-video-clip (3s and 4s), empty-audio project; its
plan has exactly 2 trim inputs totaling 7 seconds of source material and no
audio-mix step. -/
theorem export_video_plan_spec_w :
    (List.Forall₂ (fun (c : Clip) (t : TrimStep) =>
      ∃ m, lookupMedia vProj.media c.media_id = some m ∧
        t.srcPath = m.path ∧ t.seek = c.in_point ∧ t.seek + t.dur = c.out_point)
      vProj.video_clips cPlanV.videoTrims ∧
    cPlanV.concat.inputs = cPlanV.videoTrims.map TrimStep.outFile ∧
    (vProj.audio_clips = [] → cPlanV.audioTrims = [] ∧ cPlanV.mux.audioMix = none) ∧
    compile vProj "/tmp" "/out.mp4" = some cPlanV) ∧
    cPlanV.videoTrims.length = 2 ∧
    (cPlanV.videoTrims.map TrimStep.dur).sum = 7 :=
  ⟨export_video_plan_spec vProj vProj "/tmp" "/out.mp4" cPlanV rfl rfl rfl rfl,
   rfl,
   by
    show ((3 : ℚ) - 0) + ((4 - 0) + 0) = 7
    norm_num⟩

/-- C5: when the audio track is non-empty, the compiled plan's mix step
delays each trimmed audio segment by `int(start_time * 1000)` milliseconds,
identically on both channel slots, mixes all segments (its inputs are
exactly the audio trim outputs, one delay per clip) and uses the
longest-input duration policy; each audio trim extracts that clip's
`[in_point, out_point)` from its asset. -/
theorem export_audio_mix_spec (p : Project) (td op : String) (plan : ExportPlan)
    (hc : compile p td op = some plan) (hne : p.audio_clips ≠ []) :
    ∃ mix, plan.mux.audioMix = some mix ∧
      mix.delays = p.audio_clips.map delayPair ∧
      (∀ d ∈ mix.delays, d.1 = d.2) ∧
      mix.durationLongest = true ∧
      mix.inputs = plan.audioTrims.map TrimStep.outFile ∧
      mix.delays.length = p.audio_clips.length ∧
      List.Forall₂ (fun (c : Clip) (t : TrimStep) =>
        ∃ m, lookupMedia p.media c.media_id = some m ∧
          t.srcPath = m.path ∧ t.seek = c.in_point ∧ t.seek + t.dur = c.out_point)
        p.audio_clips plan.audioTrims := by
  obtain ⟨vts, hvts, hpv, hpc, _, _, _, hfull⟩ := compile_eq_some p td op plan hc
  obtain ⟨ats, hats, hpa, hmix⟩ := hfull hne
  refine ⟨⟨ats.map TrimStep.outFile, p.audio_clips.map delayPair, true⟩,
    hmix, rfl, ?_, rfl, ?_, ?_, ?_⟩
  · intro d hd
    obtain ⟨c, _, rfl⟩ := List.mem_map.mp hd
    rfl
  · rw [hpa]
  · exact List.length_map _ _
  · rw [hpa]
    exact compileTrims_sound _ _ _ 0 _ hats

/-- Witness for C5: one video clip plus two audio clips at start times 0 and
2.5 seconds; the per-input delays are 0 and 2500 milliseconds. -/
theorem export_audio_mix_spec_w :
    (∃ mix, cPlanA.mux.audioMix = some mix ∧
      mix.delays = aProj.audio_clips.map delayPair ∧
      (∀ d ∈ mix.delays, d.1 = d.2) ∧
      mix.durationLongest = true ∧
      mix.inputs = cPlanA.audioTrims.map TrimStep.outFile ∧
      mix.delays.length = aProj.audio_clips.length ∧
      List.Forall₂ (fun (c : Clip) (t : TrimStep) =>
        ∃ m, lookupMedia aProj.media c.media_id = some m ∧
          t.srcPath = m.path ∧ t.seek = c.in_point ∧ t.seek + t.dur = c.out_point)
        aProj.audio_clips cPlanA.audioTrims) ∧
    aProj.audio_clips.map (fun c => ratTrunc (c.start_time * 1000)) = [0, 2500] :=
  ⟨export_audio_mix_spec aProj "/tmp" "/out.mp4" cPlanA rfl (by decide),
   by
    show [ratTrunc ((0 : ℚ) * 1000), ratTrunc ((5/2 : ℚ) * 1000)] = [0, 2500]
    have h1 : (0 : ℚ) * 1000 = 0 := by norm_num
    have h2 : (5/2 : ℚ) * 1000 = 2500 := by norm_num
    rw [h1, h2]
    have t1 : ratTrunc 0 = 0 := by decide
    have t2 : ratTrunc 2500 = 2500 := by
      unfold ratTrunc
      norm_num
    rw [t1, t2]⟩

/-- The calls actually issued form a prefix of the call sequence: nothing
after an aborted call is ever issued. -/
theorem runCalls_prefix (engine : Nat → StepResult) (calls : List EngineCall) :
    ∃ rest, calls = (runCalls engine calls).executed ++ rest := by
  induction calls generalizing engine with
  | nil => exact ⟨[], rfl⟩
  | cons c rest ih =>
    cases he : engine 0 with
    | ok =>
      obtain ⟨r, hr⟩ := ih (fun n => engine (n + 1))
      refine ⟨r, ?_⟩
      simp only [runCalls, he]
      rw [List.cons_append, ← hr]
    | fail b =>
      refine ⟨rest, ?_⟩
      simp [runCalls, he]

/-- Every file present after a run — complete or partial — is the target of
some call that was actually issued. -/
theorem runCalls_out_mem (engine : Nat → StepResult) (calls : List EngineCall) (x : String) :
    (x ∈ (runCalls engine calls).files ∨ x ∈ (runCalls engine calls).incomplete) →
    ∃ call, call ∈ (runCalls engine calls).executed ∧ call.outFile = x := by
  induction calls generalizing engine with
  | nil =>
    intro h
    simp [runCalls] at h
  | cons c rest ih =>
    intro h
    cases he : engine 0 with
    | ok =>
      simp only [runCalls, he] at h ⊢
      rcases h with h | h
      · rcases List.mem_cons.mp h with h | h
        · exact ⟨c, List.mem_cons_self _ _, h.symm⟩
        · obtain ⟨call, hc1, hc2⟩ := ih (fun n => engine (n + 1)) (Or.inl h)
          exact ⟨call, List.mem_cons_of_mem _ hc1, hc2⟩
      · obtain ⟨call, hc1, hc2⟩ := ih (fun n => engine (n + 1)) (Or.inr h)
        exact ⟨call, List.mem_cons_of_mem _ hc1, hc2⟩
    | fail b =>
      simp only [runCalls, he] at h ⊢
      rcases h with h | h
      · simp at h
      · cases b with
        | true =>
          simp at h
          exact ⟨c, List.mem_singleton.mpr rfl, h.symm⟩
        | false => simp at h

/-- The run executes the whole sequence exactly when no failure occurred;
otherwise it stops right at the first failing invocation: the last issued
call failed and every earlier one succeeded. -/
theorem runCalls_failure_spec (engine : Nat → StepResult) (calls : List EngineCall) :
    ((runCalls engine calls).failed = false →
      (runCalls engine calls).executed = calls) ∧
    ((runCalls engine calls).failed = true →
      (runCalls engine calls).executed ≠ [] ∧
      engine ((runCalls engine calls).executed.length - 1) ≠ StepResult.ok ∧
      ∀ j, j + 1 < (runCalls engine calls).executed.length →
        engine j = StepResult.ok) := by
  induction calls generalizing engine with
  | nil =>
    constructor
    · intro _
      rfl
    · intro h
      simp [runCalls] at h
  | cons c rest ih =>
    cases he : engine 0 with
    | ok =>
      have ihs := ih (fun n => engine (n + 1))
      constructor
      · intro hf
        simp only [runCalls, he] at hf ⊢
        rw [ihs.1 hf]
      · intro hf
        simp only [runCalls, he] at hf ⊢
        obtain ⟨hne, hfl, hprev⟩ := ihs.2 hf
        have hlen : 0 < (runCalls (fun n => engine (n + 1)) rest).executed.length :=
          List.length_pos.mpr hne
        refine ⟨by simp, ?_, ?_⟩
        · have harith :
              (runCalls (fun n => engine (n + 1)) rest).executed.length - 1 + 1 =
              (runCalls (fun n => engine (n + 1)) rest).executed.length := by
            omega
          simp only [List.length_cons, Nat.add_sub_cancel]
          rw [← harith]
          exact hfl
        · intro j hj
          simp only [List.length_cons] at hj
          cases j with
          | zero => exact he
          | succ j' =>
            exact hprev j' (by omega)
    | fail b =>
      constructor
      · intro hf
        simp only [runCalls, he] at hf
        exact Bool.noConfusion hf
      · intro _
        simp only [runCalls, he]
        refine ⟨by simp, ?_, ?_⟩
        · simp only [List.length_singleton, Nat.sub_self]
          rw [he]
          simp
        · intro j hj
          simp only [List.length_singleton] at hj
          omega

/-- C4 (amended): executing a compiled plan issues its calls strictly in
order and aborts at the first failure — the issued calls are a prefix, the
whole sequence iff nothing failed, and on failure the last issued call is
the failing one with every earlier call successful; moreover, as long as the
final mux call (the only call whose declared target can be the output path)
was never issued, the output path holds neither a complete nor a partial
file.  The final mux itself writes straight to the output path, so its own
failure can leave a partial file there — see the counterexample. -/
theorem export_abort_output_safety (p : Project) (td op : String) (plan : ExportPlan)
    (engine : Nat → StepResult)
    (_hc : compile p td op = some plan)
    (htmp : ∀ call ∈ planCalls plan, call.kind ≠ "mux" → call.outFile ≠ op) :
    (∃ rest, planCalls plan = (runCalls engine (planCalls plan)).executed ++ rest) ∧
    ((runCalls engine (planCalls plan)).failed = false →
      (runCalls engine (planCalls plan)).executed = planCalls plan) ∧
    ((runCalls engine (planCalls plan)).failed = true →
      (runCalls engine (planCalls plan)).executed ≠ [] ∧
      engine ((runCalls engine (planCalls plan)).executed.length - 1) ≠ StepResult.ok ∧
      ∀ j, j + 1 < (runCalls engine (planCalls plan)).executed.length →
        engine j = StepResult.ok) ∧
    ((⟨"mux", op⟩ : EngineCall) ∉ (runCalls engine (planCalls plan)).executed →
      op ∉ (runCalls engine (planCalls plan)).files ∧
      op ∉ (runCalls engine (planCalls plan)).incomplete) := by
  obtain ⟨r, hr⟩ := runCalls_prefix engine (planCalls plan)
  have hspec := runCalls_failure_spec engine (planCalls plan)
  refine ⟨⟨r, hr⟩, hspec.1, hspec.2, ?_⟩
  intro hmux
  have key : ¬ ∃ call, call ∈ (runCalls engine (planCalls plan)).executed ∧
      call.outFile = op := by
    rintro ⟨call, hc1, hc2⟩
    have hcall_in : call ∈ planCalls plan := by
      rw [hr]
      exact List.mem_append_left _ hc1
    have hkind : call.kind = "mux" := by
      by_contra hk
      exact htmp call hcall_in hk hc2
    apply hmux
    obtain ⟨k, o⟩ := call
    have hk2 : k = "mux" := hkind
    have ho2 : o = op := hc2
    rw [← hk2, ← ho2]
    exact hc1
  constructor
  · intro hin
    exact key (runCalls_out_mem engine (planCalls plan) op (Or.inl hin))
  · intro hin
    exact key (runCalls_out_mem engine (planCalls plan) op (Or.inr hin))

/-- Witness for C4: the single-video-clip project with an all-success
engine. -/
theorem export_abort_output_safety_w :
    (∃ rest, planCalls cPlanC = (runCalls okEngine (planCalls cPlanC)).executed ++ rest) ∧
    ((runCalls okEngine (planCalls cPlanC)).failed = false →
      (runCalls okEngine (planCalls cPlanC)).executed = planCalls cPlanC) ∧
    ((runCalls okEngine (planCalls cPlanC)).failed = true →
      (runCalls okEngine (planCalls cPlanC)).executed ≠ [] ∧
      okEngine ((runCalls okEngine (planCalls cPlanC)).executed.length - 1) ≠ StepResult.ok ∧
      ∀ j, j + 1 < (runCalls okEngine (planCalls cPlanC)).executed.length →
        okEngine j = StepResult.ok) ∧
    ((⟨"mux", "/out.mp4"⟩ : EngineCall) ∉ (runCalls okEngine (planCalls cPlanC)).executed →
      "/out.mp4" ∉ (runCalls okEngine (planCalls cPlanC)).files ∧
      "/out.mp4" ∉ (runCalls okEngine (planCalls cPlanC)).incomplete) :=
  export_abort_output_safety cxProj "/tmp" "/out.mp4" cPlanC okEngine rfl (by decide)

/-- C4 counterexample: when the final mux invocation itself fails and leaves
a partial file, that partial file sits at the final output path and nothing
removes it — the code hands ffmpeg the output path directly, with no
temp-path-and-rename and no cleanup — so "no partial or corrupt output file
is retained at the final output path" fails for a mux-step failure. -/
theorem mux_failure_partial_output_cex :
    compile cxProj "/tmp" "/out.mp4" = some cPlanC ∧
    (runCalls cxEngine (planCalls cPlanC)).failed = true ∧
    "/out.mp4" ∈ (runCalls cxEngine (planCalls cPlanC)).incomplete := by
  refine ⟨rfl, by decide, by decide⟩

end VE
